import Mathlib

/-!
Verification of the zeno archive index/lookup engine
(src/src/zenolib/fileimpl.cpp).

Two embedding layers:

* `Zeno.Store`: the byte level — the raw byte store, little-endian header
  decoding, the `FileImpl` constructor (here `openArchive`), directory-entry
  reads and the index-based accessors.

* `Zeno.Lookup`: the decoded level — the directory seen through the offset
  table as a map from article index to (namespace, title), over which
  `findArticle`, `getNamespaceBeginOffset`, `getNamespaceEndOffset` and
  `getNamespaces` run exactly as in the source.  Title comparison
  (QUnicodeString::compare / compareCollate) is an external service; it is a
  parameter `tc` in the definitions, with the byte-exact mode `byteCompare`
  as the concrete instance.
-/

namespace Zeno

/-- Titles are byte sequences (the payload of a QUnicodeString). -/
abbrev Title := List Nat

/-- A decoded directory entry, restricted to the two fields the lookup
engine reads: the namespace character and the title. -/
structure Dirent where
  ns : Nat
  title : Title

/-- Byte-exact three-way comparison of titles (the byte mode of the external
string-comparison service): lexicographic on the byte sequences, returning
-1 / 0 / 1. -/
def byteCompare : Title → Title → Int
  | [], [] => 0
  | [], _ :: _ => -1
  | _ :: _, [] => 1
  | a :: as, b :: bs =>
    if a < b then -1 else if b < a then 1 else byteCompare as bs

/-- The two-level key comparison computed inside FileImpl::findArticle
(lines 128-131): namespace character first (byte order), then the title
comparison `tc` (byte-exact or collated, per the `collate` flag). -/
def kcmp (tc : Title → Title → Int) (p q : Nat × Title) : Int :=
  if p.1 < q.1 then -1 else if q.1 < p.1 then 1 else tc p.2 q.2

theorem byteCompare_exch : ∀ x y : Title, 0 < byteCompare x y ↔ byteCompare y x < 0 := by
  intro x
  induction x with
  | nil => intro y; cases y <;> simp [byteCompare]
  | cons a as ih =>
    intro y
    cases y with
    | nil => simp [byteCompare]
    | cons b bs =>
      simp only [byteCompare]
      rcases Nat.lt_trichotomy a b with h | h | h
      · have h2 : ¬ b < a := by omega
        simp only [if_pos h, if_neg h2]; decide
      · subst h
        have h2 : ¬ a < a := by omega
        simp only [if_neg h2]
        exact ih bs
      · have h2 : ¬ a < b := by omega
        simp only [if_pos h, if_neg h2]; decide

theorem byteCompare_neg_cons (a b : Nat) (as bs : Title) :
    byteCompare (a :: as) (b :: bs) < 0 ↔ a < b ∨ (a = b ∧ byteCompare as bs < 0) := by
  simp only [byteCompare]
  rcases Nat.lt_trichotomy a b with h | h | h
  · simp [h, show ¬ b < a by omega]
  · subst h
    simp [show ¬ a < a by omega]
  · simp [h, show ¬ a < b by omega, show a ≠ b by omega]

theorem byteCompare_trans :
    ∀ x y z : Title, byteCompare x y < 0 → byteCompare y z < 0 → byteCompare x z < 0 := by
  intro x
  induction x with
  | nil =>
    intro y z hxy hyz
    cases y with
    | nil => simp [byteCompare] at hxy
    | cons b bs =>
      cases z with
      | nil => simp [byteCompare] at hyz
      | cons c cs => simp [byteCompare]
  | cons a as ih =>
    intro y z hxy hyz
    cases y with
    | nil => simp [byteCompare] at hxy
    | cons b bs =>
      cases z with
      | nil => simp [byteCompare] at hyz
      | cons c cs =>
        rw [byteCompare_neg_cons] at hxy hyz ⊢
        rcases hxy with h1 | ⟨h1, h1v⟩ <;> rcases hyz with h2 | ⟨h2, h2v⟩
        · exact Or.inl (by omega)
        · exact Or.inl (by omega)
        · exact Or.inl (by omega)
        · exact Or.inr ⟨by omega, ih bs cs h1v h2v⟩

theorem kcmp_neg_iff (tc : Title → Title → Int) (p q : Nat × Title) :
    kcmp tc p q < 0 ↔ p.1 < q.1 ∨ (p.1 = q.1 ∧ tc p.2 q.2 < 0) := by
  unfold kcmp
  rcases Nat.lt_trichotomy p.1 q.1 with h | h | h
  · rw [if_pos h]
    exact ⟨fun _ => Or.inl h, fun _ => by decide⟩
  · have h2 : ¬ p.1 < q.1 := by omega
    have h3 : ¬ q.1 < p.1 := by omega
    simp only [if_neg h2, if_neg h3]
    exact ⟨fun hv => Or.inr ⟨h, hv⟩, by rintro (hv | ⟨_, hv⟩) <;> [omega; exact hv]⟩
  · have h2 : ¬ p.1 < q.1 := by omega
    simp only [if_neg h2, if_pos h]
    exact ⟨fun hv => by omega, by rintro (hv | ⟨hv, _⟩) <;> omega⟩

theorem kcmp_pos_iff (tc : Title → Title → Int) (p q : Nat × Title) :
    0 < kcmp tc p q ↔ q.1 < p.1 ∨ (p.1 = q.1 ∧ 0 < tc p.2 q.2) := by
  unfold kcmp
  rcases Nat.lt_trichotomy p.1 q.1 with h | h | h
  · rw [if_pos h]
    exact ⟨fun hv => by omega, by rintro (hv | ⟨hv, _⟩) <;> omega⟩
  · have h2 : ¬ p.1 < q.1 := by omega
    have h3 : ¬ q.1 < p.1 := by omega
    simp only [if_neg h2, if_neg h3]
    exact ⟨fun hv => Or.inr ⟨h, hv⟩, by rintro (hv | ⟨_, hv⟩) <;> [omega; exact hv]⟩
  · have h2 : ¬ p.1 < q.1 := by omega
    simp only [if_neg h2, if_pos h]
    exact ⟨fun _ => Or.inl h, fun _ => by decide⟩

theorem kcmp_eq_zero_iff (tc : Title → Title → Int) (p q : Nat × Title) :
    kcmp tc p q = 0 ↔ p.1 = q.1 ∧ tc p.2 q.2 = 0 := by
  unfold kcmp
  rcases Nat.lt_trichotomy p.1 q.1 with h | h | h
  · rw [if_pos h]
    exact ⟨fun hv => by omega, fun ⟨hv, _⟩ => by omega⟩
  · have h2 : ¬ p.1 < q.1 := by omega
    have h3 : ¬ q.1 < p.1 := by omega
    simp only [if_neg h2, if_neg h3]
    exact ⟨fun hv => ⟨h, hv⟩, fun ⟨_, hv⟩ => hv⟩
  · have h2 : ¬ p.1 < q.1 := by omega
    simp only [if_neg h2, if_pos h]
    exact ⟨fun hv => by omega, fun ⟨hv, _⟩ => by omega⟩

/-- Sign exchange for `kcmp`, given sign exchange for the title comparison. -/
theorem kcmp_exch (tc : Title → Title → Int)
    (h1 : ∀ x y, 0 < tc x y ↔ tc y x < 0) (p q : Nat × Title) :
    0 < kcmp tc p q ↔ kcmp tc q p < 0 := by
  rw [kcmp_pos_iff, kcmp_neg_iff]
  constructor
  · rintro (h | ⟨he, hv⟩)
    · exact Or.inl h
    · exact Or.inr ⟨he.symm, (h1 _ _).mp hv⟩
  · rintro (h | ⟨he, hv⟩)
    · exact Or.inl h
    · exact Or.inr ⟨he.symm, (h1 _ _).mpr hv⟩

/-- Transitivity of strict order under `kcmp`, given transitivity for the
title comparison. -/
theorem kcmp_trans (tc : Title → Title → Int)
    (h3 : ∀ x y z, tc x y < 0 → tc y z < 0 → tc x z < 0) (p q r : Nat × Title) :
    kcmp tc p q < 0 → kcmp tc q r < 0 → kcmp tc p r < 0 := by
  rw [kcmp_neg_iff, kcmp_neg_iff, kcmp_neg_iff]
  rintro (h | ⟨he, hv⟩) <;> rintro (h' | ⟨he', hv'⟩)
  · exact Or.inl (by omega)
  · exact Or.inl (by omega)
  · exact Or.inl (by omega)
  · exact Or.inr ⟨by omega, h3 _ _ _ hv hv'⟩

/-- The error kinds of the spec's taxonomy: `formatError` carries the
mismatched header value where the source message reports one, `outOfRange`
is the index-out-of-range failure of the index-based accessors. -/
inductive ZenoError where
  | formatError : Option Nat → ZenoError
  | outOfRange : ZenoError
deriving DecidableEq

namespace Lookup

/-- The directory as the lookup engine sees it through the offset table:
the article count, and for each index the directory entry decoded at
`indexOffsets[i]` (readDirentNolock composed with the offset table — the
entry layout itself lives in the Store layer). -/
structure LookupArchive where
  count : Nat
  ent : Nat → Dirent

/-- The (namespace, title) key of the entry at index `i`. -/
def entKey (a : LookupArchive) (i : Nat) : Nat × Title :=
  ((a.ent i).ns, (a.ent i).title)

/-- The global sort invariant assumed by the engine: entries are strictly
ordered by (namespace, title) under the title comparison `tc`. -/
abbrev sortedByKey (tc : Title → Title → Int) (a : LookupArchive) : Prop :=
  ∀ i, i < a.count → ∀ j, j < a.count → i < j →
    kcmp tc (entKey a i) (entKey a j) < 0

/-- FileImpl::getDirent (fileimpl.cpp lines 168-175): bounds check against
the article count, then the entry decoded from the offset table. -/
def getDirent (a : LookupArchive) (idx : Nat) : Except ZenoError Dirent :=
  if a.count ≤ idx then .error .outOfRange else .ok (a.ent idx)

/-- The while loop of FileImpl::findArticle (lines 122-141) followed by the
post-loop check (lines 143-153).  Note the post-loop check compares the
TITLE ONLY (lines 144-145), exactly as the source does.  `fuel` bounds the
number of iterations: every call below passes fuel with `u - l ≤ fuel`, and
each iteration shrinks `u - l` by at least one, so the fuel-0 arm (which
performs the same post-loop check) is reached only when the loop guard is
already false. -/
def findArticleLoop (tc : Title → Title → Int) (a : LookupArchive)
    (ns : Nat) (title : Title) : Nat → Nat → Nat → Bool × Nat
  | fuel + 1, l, u =>
    if 1 < u - l then
      let p := l + (u - l) / 2
      let d := a.ent p
      let c := kcmp tc (ns, title) (d.ns, d.title)
      if c < 0 then findArticleLoop tc a ns title fuel l p
      else if 0 < c then findArticleLoop tc a ns title fuel p u
      else (true, p)
    else
      let d := a.ent l
      if tc title d.title = 0 then (true, l) else (false, u)
  | 0, l, u =>
    let d := a.ent l
    if tc title d.title = 0 then (true, l) else (false, u)

/-- The while loop of FileImpl::getNamespaceEndOffset (lines 201-210); the
in-loop getDirent(m) always has m < upper ≤ count, so it never throws and
is the plain entry map here. -/
def endOffsetLoop (a : LookupArchive) (ch : Nat) : Nat → Nat → Nat → Nat
  | fuel + 1, lower, upper =>
    if 1 < upper - lower then
      let m := lower + (upper - lower) / 2
      let d := a.ent m
      if ch < d.ns then endOffsetLoop a ch fuel lower m
      else endOffsetLoop a ch fuel m upper
    else upper
  | 0, _, upper => upper

/-- FileImpl::getNamespaceEndOffset (lines 194-212): binary search returning
the final upper bound. -/
def getNamespaceEndOffset (a : LookupArchive) (ch : Nat) : Nat :=
  endOffsetLoop a ch a.count 0 a.count

/-- The while loop of FileImpl::getNamespaceBeginOffset (lines 182-190),
comparing with `d.getNamespace() >= ch`; returns the final (lower, upper)
pair.  The in-loop getDirent(m) always has m < upper ≤ count. -/
def beginOffsetLoop (a : LookupArchive) (ch : Nat) : Nat → Nat → Nat → Nat × Nat
  | fuel + 1, lower, upper =>
    if 1 < upper - lower then
      let m := lower + (upper - lower) / 2
      let d := a.ent m
      if ch ≤ d.ns then beginOffsetLoop a ch fuel lower m
      else beginOffsetLoop a ch fuel m upper
    else (lower, upper)
  | 0, lower, upper => (lower, upper)

/-- FileImpl::getNamespaceBeginOffset (lines 177-192).  The `Dirent d` read
before the loop (line 181) is entry 0 and can throw for an empty archive;
the `d` declared inside the loop shadows it, so the final conditional on
line 191 tests entry 0's namespace. -/
def getNamespaceBeginOffset (a : LookupArchive) (ch : Nat) : Except ZenoError Nat :=
  match getDirent a 0 with
  | .error e => .error e
  | .ok d =>
    let lu := beginOffsetLoop a ch a.count 0 a.count
    .ok (if d.ns < ch then lu.2 else lu.1)

/-- The while loop of FileImpl::getNamespaces (lines 222-226): jump to the
end offset of the current namespace; if still inside the table, read that
entry and append its namespace.  The in-loop getDirent(idx) has
idx < count.  `fuel` bounds the iterations; for a sorted archive the jump
index strictly increases, so `count` iterations always suffice. -/
def namespacesLoop (a : LookupArchive) : Nat → Dirent → List Nat → List Nat
  | fuel + 1, d, acc =>
    let idx := getNamespaceEndOffset a d.ns
    if idx < a.count then
      namespacesLoop a fuel (a.ent idx) (acc ++ [(a.ent idx).ns])
    else acc
  | 0, _, acc => acc

/-- The namespace string computed by a cache miss of getNamespaces. -/
def namespacesList (a : LookupArchive) : List Nat :=
  namespacesLoop a a.count (a.ent 0) [(a.ent 0).ns]

/-- FileImpl::getNamespaces (lines 214-230) with the lazily filled member
cache made explicit: takes the current cache contents and returns the
result together with the new cache contents.  A cache miss reads entry 0
(getDirent(0), which throws for an empty archive) and walks the
namespace-run boundaries. -/
def getNamespaces (a : LookupArchive) (cache : List Nat) :
    Except ZenoError (List Nat × List Nat) :=
  if cache = [] then
    match getDirent a 0 with
    | .error e => .error e
    | .ok d =>
      let v := namespacesLoop a a.count d [d.ns]
      .ok (v, v)
  else .ok (cache, cache)

/-- FileImpl::findArticle (lines 106-154): the absent-namespace
short-circuit against getNamespaces() (lines 110-114), then the open
interval binary search with l = 0, u = articleCount. -/
def findArticle (tc : Title → Title → Int) (a : LookupArchive)
    (cache : List Nat) (ns : Nat) (title : Title) :
    Except ZenoError (Bool × Nat) :=
  match getNamespaces a cache with
  | .error e => .error e
  | .ok (nss, _) =>
    if ns ∈ nss then
      .ok (findArticleLoop tc a ns title a.count 0 a.count)
    else .ok (false, 0)

end Lookup

namespace Store

/-- The backing byte store: a fully seekable, read-only sequence of bytes. -/
abbrev ByteStore := List Nat

/-- The byte at position `i` of a buffer (0 past the end; reads below are
always length-checked before decoding, so the default never matters for a
checked read). -/
def byteAt (bs : List Nat) (i : Nat) : Nat := bs.getD i 0

/-- fromLittleEndian for the 32-bit size_type fields. -/
def le32 (bs : List Nat) (off : Nat) : Nat :=
  byteAt bs off + 256 * byteAt bs (off + 1) + 65536 * byteAt bs (off + 2) +
    16777216 * byteAt bs (off + 3)

/-- fromLittleEndian for the 64-bit offset_type fields. -/
def le64 (bs : List Nat) (off : Nat) : Nat :=
  le32 bs off + 4294967296 * le32 bs (off + 4)

/-- istream semantics of `read(buf, count)` from position `pos`: the bytes
actually delivered (gcount of them; fewer than `count` exactly when the
store is exhausted). -/
def readBytes (s : ByteStore) (pos count : Nat) : List Nat :=
  (s.drop pos).take count

/-- The state FileImpl keeps after construction that the index-based
accessors use: the decoded article count and the offset table. -/
structure OpenResult where
  articleCount : Nat
  indexOffsets : List Nat

/-- Modelled from the spec: FileImpl::getCountArticles is declared in the
header fileimpl.h, which is not under src/; the spec fixes
`OffsetTable.length == articleCount`, so it is the decoded article count. -/
def getCountArticles (r : OpenResult) : Nat := r.articleCount

/-- The header bytes read at open time (0x3c = 60 bytes at offset 0). -/
def hdrBytes (s : ByteStore) : List Nat := readBytes s 0 60

def hdrMagic (s : ByteStore) : Nat := le32 (hdrBytes s) 0

def hdrVersion (s : ByteStore) : Nat := le32 (hdrBytes s) 4

def hdrCount (s : ByteStore) : Nat := le32 (hdrBytes s) 8

def hdrIndexPos (s : ByteStore) : Nat := le64 (hdrBytes s) 16

def hdrIndexPtrPos (s : ByteStore) : Nat := le64 (hdrBytes s) 32

def hdrIndexPtrLen (s : ByteStore) : Nat := le32 (hdrBytes s) 40

/-- The pointer buffer as FileImpl's constructor sees it: a value-initialized
vector of rCount 32-bit slots (4*rCount bytes of zeros) overwritten from the
front by whatever the unchecked read at rIndexPtrPos delivers.  The request
is clamped to the buffer size: writing past the vector's storage is
undefined behaviour in the source and is not modelled. -/
def ptrBuffer (s : ByteStore) : List Nat :=
  let raw := readBytes s (hdrIndexPtrPos s) (min (hdrIndexPtrLen s) (4 * hdrCount s))
  raw ++ List.replicate (4 * hdrCount s - raw.length) 0

/-- The i-th decoded index-pointer value, in read order. -/
def ptrVal (s : ByteStore) (i : Nat) : Nat := le32 (ptrBuffer s) (4 * i)

/-- FileImpl::FileImpl (fileimpl.cpp lines 36-82): read and length-check the
60-byte header; check magic then version (FormatError carrying the decoded
value on mismatch); decode the counts and positions; then seek to the
index-pointer table and read it WITHOUT checking the result (lines 72-74),
building the offset table as rIndexPos + pointer for each of the rCount
buffer slots, in order.  Offset arithmetic is 64-bit (offset_type). -/
def openArchive (s : ByteStore) : Except ZenoError OpenResult :=
  let header := readBytes s 0 60
  if header.length ≠ 60 then .error (.formatError none)
  else
    let rMagic := le32 header 0
    if rMagic ≠ 1439867043 then .error (.formatError (some rMagic))
    else
      let rVersion := le32 header 4
      if rVersion ≠ 3 then .error (.formatError (some rVersion))
      else
        let rCount := le32 header 8
        let rIndexPos := le64 header 16
        let rIndexPtrPos := le64 header 32
        let rIndexPtrLen := le32 header 40
        let raw := readBytes s rIndexPtrPos (min rIndexPtrLen (4 * rCount))
        let buf := raw ++ List.replicate (4 * rCount - raw.length) 0
        .ok { articleCount := rCount
              indexOffsets := (List.range rCount).map
                (fun i => (rIndexPos + le32 buf (4 * i)) % 18446744073709551616) }

/-- Modelled from the spec: the extra-length field of the fixed 26-byte
entry header (the layout lives in zeno/dirent.h, which is not under src/);
a little-endian field of the fixed header, placed at its last two bytes. -/
def direntExtraLen (hdr : List Nat) : Nat :=
  byteAt hdr 24 + 256 * byteAt hdr 25

/-- A directory entry as read from the byte store: the 26 fixed header
bytes and the extra blob. -/
structure RawDirent where
  header : List Nat
  extra : List Nat

/-- FileImpl::readDataNolock(count) (lines 244-257): reads `count` bytes in
chunks from position `pos`; a short chunk fails the stream and raises
FormatError, so it succeeds exactly when `count` bytes are available. -/
def readDataNolock (s : ByteStore) (pos count : Nat) : Except ZenoError (List Nat) :=
  if pos + count ≤ s.length then .ok (readBytes s pos count)
  else .error (.formatError none)

/-- FileImpl::readDirentNolock (lines 259-282): seek to `off`, read the 26
header bytes (FormatError when short), then the extra blob when its length
is positive. -/
def readDirentNolock (s : ByteStore) (off : Nat) : Except ZenoError RawDirent :=
  let hdr := readBytes s off 26
  if hdr.length ≠ 26 then .error (.formatError none)
  else if 0 < direntExtraLen hdr then
    match readDataNolock s (off + 26) (direntExtraLen hdr) with
    | .error e => .error e
    | .ok extra => .ok ⟨hdr, extra⟩
  else .ok ⟨hdr, []⟩

/-- FileImpl::getDirent (lines 168-175): OutOfRange when
idx >= getCountArticles(), else the entry read at indexOffsets[idx]. -/
def getDirent (r : OpenResult) (s : ByteStore) (idx : Nat) :
    Except ZenoError RawDirent :=
  if getCountArticles r ≤ idx then .error .outOfRange
  else readDirentNolock s (r.indexOffsets.getD idx 0)

/-- FileImpl::getArticle(size_type idx) (lines 156-166): same bounds check,
then the Article handle (index, entry) built from the decoded entry. -/
def getArticle (r : OpenResult) (s : ByteStore) (idx : Nat) :
    Except ZenoError (Nat × RawDirent) :=
  if getCountArticles r ≤ idx then .error .outOfRange
  else
    match readDirentNolock s (r.indexOffsets.getD idx 0) with
    | .error e => .error e
    | .ok d => .ok (idx, d)

end Store

/-! Concrete inputs used by the evaluation theorems and witnesses. -/

/-- Little-endian encoding of a 32-bit value, for building concrete stores. -/
def le32Bytes (n : Nat) : List Nat :=
  [n % 256, n / 256 % 256, n / 65536 % 256, n / 16777216 % 256]

/-- Little-endian encoding of a 64-bit value. -/
def le64Bytes (n : Nat) : List Nat :=
  le32Bytes (n % 4294967296) ++ le32Bytes (n / 4294967296)

/-- A well-formed 60-byte header: correct magic and version, one article,
index table at byte 100, index-pointer table at byte 60 with length 4. -/
def hdr1 : Store.ByteStore :=
  le32Bytes 1439867043 ++ le32Bytes 3 ++ le32Bytes 1 ++ le32Bytes 0 ++
    le64Bytes 100 ++ le32Bytes 0 ++ le32Bytes 0 ++ le64Bytes 60 ++
    le32Bytes 4 ++ List.replicate 16 0

/-- A store that ends right after the header: the 4-byte index-pointer read
at position 60 is fully truncated. -/
def storeTrunc : Store.ByteStore := hdr1

/-- The same header followed by the complete index-pointer table (one
pointer, value 7). -/
def storeFull : Store.ByteStore := hdr1 ++ le32Bytes 7

/-- A header-sized store with a wrong magic number. -/
def storeBadMagic : Store.ByteStore := List.replicate 60 0

/-- A store shorter than the 60-byte header. -/
def storeShort : Store.ByteStore := List.replicate 10 0

/-- A store on which every directory-entry field is zero: a 26-byte header
with extra length 0 parses at offset 0. -/
def storeDirent : Store.ByteStore := List.replicate 26 0

namespace Lookup

/-- Build the decoded view from an explicit entry list. -/
def mkArch (l : List Dirent) : LookupArchive :=
  ⟨l.length, fun i => l.getD i ⟨0, []⟩⟩

/-- Entries ('A', "t") and ('B', "x"): searching for ('B', "t") exercises
the title-only post-loop comparison against entry 0. -/
def archNsBug : LookupArchive := mkArch [⟨65, [116]⟩, ⟨66, [120]⟩]

/-- Entries ('A', "b") and ('A', "c"): searching for ('A', "a") has
insertion point 0. -/
def archInsert : LookupArchive := mkArch [⟨65, [98]⟩, ⟨65, [99]⟩]

/-- Entries ('A', "b") and ('A', "d"): searching for ('A', "c") has
insertion point 1. -/
def archBetween : LookupArchive := mkArch [⟨65, [98]⟩, ⟨65, [100]⟩]

/-- Sorted entries spanning namespaces 'A', 'B', 'B', 'C'. -/
def archFour : LookupArchive :=
  mkArch [⟨65, [97]⟩, ⟨66, [98]⟩, ⟨66, [99]⟩, ⟨67, [100]⟩]

/-- The spec's worked example: namespace 'A' titles "bat" "cat" "dog",
namespace 'B' title "eel". -/
def archSpec : LookupArchive :=
  mkArch [⟨65, [98, 97, 116]⟩, ⟨65, [99, 97, 116]⟩, ⟨65, [100, 111, 103]⟩,
    ⟨66, [101, 101, 108]⟩]

/-- A one-entry archive in namespace 'A'. -/
def archOne : LookupArchive := mkArch [⟨65, []⟩]

/-- The empty archive. -/
def archEmpty : LookupArchive := mkArch []

end Lookup

/-! Properties of the lookup engine. -/

namespace Lookup

/-- The sort invariant is namespace-major: namespaces are monotone in the
index. -/
theorem sorted_ns_le (tc : Title → Title → Int) (a : LookupArchive)
    (hs : sortedByKey tc a) :
    ∀ i j, i ≤ j → j < a.count → (a.ent i).ns ≤ (a.ent j).ns := by
  intro i j hij hj
  rcases Nat.eq_or_lt_of_le hij with he | hl
  · rw [he]
  · have h := hs i (by omega) j hj hl
    rw [kcmp_neg_iff] at h
    rcases h with h | ⟨h, _⟩
    · exact Nat.le_of_lt h
    · exact Nat.le_of_eq h

/-- Invariant of the getNamespaceEndOffset loop: starting from a bracket
with ns(lower) ≤ ch and (upper = count or ch < ns(upper)), it returns the
final upper bound u with ns(u-1) ≤ ch and (u = count or ch < ns(u)). -/
theorem endOffsetLoop_spec (a : LookupArchive) (ch : Nat) :
    ∀ fuel lower upper, upper - lower ≤ fuel → lower < upper → upper ≤ a.count →
      (a.ent lower).ns ≤ ch → (upper = a.count ∨ ch < (a.ent upper).ns) →
      lower < endOffsetLoop a ch fuel lower upper ∧
      endOffsetLoop a ch fuel lower upper ≤ upper ∧
      (a.ent (endOffsetLoop a ch fuel lower upper - 1)).ns ≤ ch ∧
      (endOffsetLoop a ch fuel lower upper = a.count ∨
        ch < (a.ent (endOffsetLoop a ch fuel lower upper)).ns) := by
  intro fuel
  induction fuel with
  | zero => intro lower upper h1 h2 _ _ _; omega
  | succ k ih =>
    intro lower upper hfu hlu huc hlo hup
    by_cases hg : 1 < upper - lower
    · have hred : endOffsetLoop a ch (k + 1) lower upper =
          if ch < (a.ent (lower + (upper - lower) / 2)).ns then
            endOffsetLoop a ch k lower (lower + (upper - lower) / 2)
          else endOffsetLoop a ch k (lower + (upper - lower) / 2) upper := by
        simp only [endOffsetLoop]
        rw [if_pos hg]
      by_cases hc : ch < (a.ent (lower + (upper - lower) / 2)).ns
      · rw [hred, if_pos hc]
        obtain ⟨r1, r2, r3, r4⟩ :=
          ih lower (lower + (upper - lower) / 2) (by omega) (by omega) (by omega)
            hlo (Or.inr hc)
        exact ⟨r1, by omega, r3, r4⟩
      · rw [hred, if_neg hc]
        obtain ⟨r1, r2, r3, r4⟩ :=
          ih (lower + (upper - lower) / 2) upper (by omega) (by omega) huc
            (by omega) hup
        exact ⟨by omega, r2, r3, r4⟩
    · have hred : endOffsetLoop a ch (k + 1) lower upper = upper := by
        simp only [endOffsetLoop]
        rw [if_neg hg]
      rw [hred]
      have hu1 : upper - 1 = lower := by omega
      rw [hu1]
      exact ⟨by omega, le_refl _, hlo, hup⟩

/-- Characterization of getNamespaceEndOffset on an archive with monotone
namespaces, for a character at least the first entry's namespace: it is the
cut point below which namespaces are ≤ ch and at or above which they exceed
ch. -/
theorem endOffset_char (a : LookupArchive) (ch : Nat)
    (hns : ∀ i j, i ≤ j → j < a.count → (a.ent i).ns ≤ (a.ent j).ns)
    (hcount : 0 < a.count) (hch : (a.ent 0).ns ≤ ch) :
    getNamespaceEndOffset a ch ≤ a.count ∧ 0 < getNamespaceEndOffset a ch ∧
    ∀ i, i < a.count → (i < getNamespaceEndOffset a ch ↔ (a.ent i).ns ≤ ch) := by
  obtain ⟨r1, r2, r3, r4⟩ :=
    endOffsetLoop_spec a ch a.count 0 a.count (by omega) hcount (le_refl _) hch
      (Or.inl rfl)
  have hEdef : getNamespaceEndOffset a ch = endOffsetLoop a ch a.count 0 a.count := rfl
  rw [← hEdef] at r1 r2 r3 r4
  refine ⟨r2, by omega, ?_⟩
  intro i hi
  constructor
  · intro hiE
    have h1 : i ≤ getNamespaceEndOffset a ch - 1 := by omega
    have h2 : getNamespaceEndOffset a ch - 1 < a.count := by omega
    exact le_trans (hns i _ h1 h2) r3
  · intro hle
    by_contra hEi
    rcases r4 with he | hgt
    · omega
    · have h2 : (a.ent (getNamespaceEndOffset a ch)).ns ≤ (a.ent i).ns :=
        hns _ i (by omega) hi
      omega

/-- Invariant of the getNamespaceBeginOffset loop: it returns adjacent
final bounds (l, l+1) with (l = 0 or ns(l) < ch) and (l+1 = count or
ch ≤ ns(l+1)). -/
theorem beginOffsetLoop_spec (a : LookupArchive) (ch : Nat) :
    ∀ fuel lower upper, upper - lower ≤ fuel → lower < upper → upper ≤ a.count →
      (lower = 0 ∨ (a.ent lower).ns < ch) → (upper = a.count ∨ ch ≤ (a.ent upper).ns) →
      (beginOffsetLoop a ch fuel lower upper).2 =
        (beginOffsetLoop a ch fuel lower upper).1 + 1 ∧
      lower ≤ (beginOffsetLoop a ch fuel lower upper).1 ∧
      (beginOffsetLoop a ch fuel lower upper).2 ≤ upper ∧
      ((beginOffsetLoop a ch fuel lower upper).1 = 0 ∨
        (a.ent (beginOffsetLoop a ch fuel lower upper).1).ns < ch) ∧
      ((beginOffsetLoop a ch fuel lower upper).2 = a.count ∨
        ch ≤ (a.ent (beginOffsetLoop a ch fuel lower upper).2).ns) := by
  intro fuel
  induction fuel with
  | zero => intro lower upper h1 h2 _ _ _; omega
  | succ k ih =>
    intro lower upper hfu hlu huc hlo hup
    by_cases hg : 1 < upper - lower
    · have hred : beginOffsetLoop a ch (k + 1) lower upper =
          if ch ≤ (a.ent (lower + (upper - lower) / 2)).ns then
            beginOffsetLoop a ch k lower (lower + (upper - lower) / 2)
          else beginOffsetLoop a ch k (lower + (upper - lower) / 2) upper := by
        simp only [beginOffsetLoop]
        rw [if_pos hg]
      by_cases hc : ch ≤ (a.ent (lower + (upper - lower) / 2)).ns
      · rw [hred, if_pos hc]
        obtain ⟨r1, r2, r3, r4, r5⟩ :=
          ih lower (lower + (upper - lower) / 2) (by omega) (by omega) (by omega)
            hlo (Or.inr hc)
        exact ⟨r1, r2, by omega, r4, r5⟩
      · rw [hred, if_neg hc]
        obtain ⟨r1, r2, r3, r4, r5⟩ :=
          ih (lower + (upper - lower) / 2) upper (by omega) (by omega) huc
            (Or.inr (by omega)) hup
        exact ⟨r1, by omega, r3, r4, r5⟩
    · have hred : beginOffsetLoop a ch (k + 1) lower upper = (lower, upper) := by
        simp only [beginOffsetLoop]
        rw [if_neg hg]
      rw [hred]
      exact ⟨by omega, le_refl _, le_refl _, hlo, hup⟩

/-- The getNamespaces walk, started at entry p, appends to the accumulator
exactly the namespaces occurring after p's namespace, in strictly
ascending order. -/
theorem namespacesLoop_spec (a : LookupArchive)
    (hns : ∀ i j, i ≤ j → j < a.count → (a.ent i).ns ≤ (a.ent j).ns) :
    ∀ fuel p acc, p < a.count → a.count - p ≤ fuel →
      ∃ tail, namespacesLoop a fuel (a.ent p) acc = acc ++ tail ∧
        List.Chain' (· < ·) ((a.ent p).ns :: tail) ∧
        ∀ c, c ∈ tail ↔ ∃ i, i < a.count ∧ (a.ent i).ns = c ∧ (a.ent p).ns < c := by
  intro fuel
  induction fuel with
  | zero => intro p acc h1 h2; omega
  | succ k ih =>
    intro p acc hp hfu
    have hch : (a.ent 0).ns ≤ (a.ent p).ns := hns 0 p (by omega) hp
    obtain ⟨hE1, hE2, hEc⟩ := endOffset_char a ((a.ent p).ns) hns (by omega) hch
    have hpE : p < getNamespaceEndOffset a (a.ent p).ns := (hEc p hp).mpr (le_refl _)
    have hred : namespacesLoop a (k + 1) (a.ent p) acc =
        if getNamespaceEndOffset a (a.ent p).ns < a.count then
          namespacesLoop a k (a.ent (getNamespaceEndOffset a (a.ent p).ns))
            (acc ++ [(a.ent (getNamespaceEndOffset a (a.ent p).ns)).ns])
        else acc := by
      simp only [namespacesLoop]
    by_cases hidx : getNamespaceEndOffset a (a.ent p).ns < a.count
    · rw [hred, if_pos hidx]
      have hlt : (a.ent p).ns < (a.ent (getNamespaceEndOffset a (a.ent p).ns)).ns := by
        by_contra hc
        have := (hEc _ hidx).mpr (by omega)
        omega
      obtain ⟨tail, ht1, ht2, ht3⟩ :=
        ih (getNamespaceEndOffset a (a.ent p).ns)
          (acc ++ [(a.ent (getNamespaceEndOffset a (a.ent p).ns)).ns]) hidx (by omega)
      refine ⟨(a.ent (getNamespaceEndOffset a (a.ent p).ns)).ns :: tail, ?_, ?_, ?_⟩
      · rw [ht1, List.append_assoc]
        rfl
      · exact List.chain'_cons.mpr ⟨hlt, ht2⟩
      · intro c
        constructor
        · intro hc
          rcases List.mem_cons.mp hc with he | hc'
          · exact ⟨getNamespaceEndOffset a (a.ent p).ns, hidx, he.symm, he ▸ hlt⟩
          · obtain ⟨i, hi, hci, hgt⟩ := (ht3 c).mp hc'
            exact ⟨i, hi, hci, by omega⟩
        · rintro ⟨i, hi, hci, hgt⟩
          have hge : getNamespaceEndOffset a (a.ent p).ns ≤ i := by
            by_contra hlt2
            have := (hEc i hi).mp (by omega)
            omega
          have hle2 : (a.ent (getNamespaceEndOffset a (a.ent p).ns)).ns ≤ (a.ent i).ns :=
            hns _ i hge hi
          rcases Nat.eq_or_lt_of_le hle2 with he | hlt3
          · exact List.mem_cons.mpr (Or.inl (by omega))
          · exact List.mem_cons.mpr (Or.inr ((ht3 c).mpr ⟨i, hi, hci, by omega⟩))
    · rw [hred, if_neg hidx]
      refine ⟨[], by simp, List.chain'_singleton _, ?_⟩
      intro c
      constructor
      · intro hc
        exact absurd hc (List.not_mem_nil c)
      · rintro ⟨i, hi, hci, hgt⟩
        have := (hEc i hi).mp (by omega)
        omega

/-- The namespace string computed by a cache miss is strictly ascending and
contains exactly the namespaces present in the archive. -/
theorem namespacesList_spec (a : LookupArchive)
    (hns : ∀ i j, i ≤ j → j < a.count → (a.ent i).ns ≤ (a.ent j).ns)
    (hcount : 0 < a.count) :
    List.Chain' (· < ·) (namespacesList a) ∧
    ∀ c, c ∈ namespacesList a ↔ ∃ i, i < a.count ∧ (a.ent i).ns = c := by
  obtain ⟨tail, ht1, ht2, ht3⟩ :=
    namespacesLoop_spec a hns a.count 0 [(a.ent 0).ns] hcount (by omega)
  have he : namespacesList a = (a.ent 0).ns :: tail := by
    unfold namespacesList
    rw [ht1]
    rfl
  rw [he]
  refine ⟨ht2, ?_⟩
  intro c
  rw [List.mem_cons]
  constructor
  · rintro (he' | hc)
    · exact ⟨0, hcount, he'.symm⟩
    · obtain ⟨i, hi, hci, _⟩ := (ht3 c).mp hc
      exact ⟨i, hi, hci⟩
  · rintro ⟨i, hi, hci⟩
    have h0i : (a.ent 0).ns ≤ (a.ent i).ns := hns 0 i (by omega) hi
    rcases Nat.eq_or_lt_of_le h0i with he' | hlt
    · exact Or.inl (by omega)
    · exact Or.inr ((ht3 c).mpr ⟨i, hi, hci, by omega⟩)

/-- A cache miss of getNamespaces on a non-empty archive succeeds and fills
the cache with the computed namespace string. -/
theorem getNamespaces_empty (a : LookupArchive) (hcount : 0 < a.count) :
    getNamespaces a [] = .ok (namespacesList a, namespacesList a) := by
  have hd0 : getDirent a 0 = .ok (a.ent 0) := by
    unfold getDirent
    rw [if_neg (by omega)]
  simp only [getNamespaces, hd0]
  rfl

/-- The search key stays above every entry key at or below a position it
dominates (downward closure, from sortedness and the comparison laws). -/
theorem searchKey_pos_mono (tc : Title → Title → Int)
    (h1 : ∀ x y, 0 < tc x y ↔ tc y x < 0)
    (h3 : ∀ x y z, tc x y < 0 → tc y z < 0 → tc x z < 0)
    (a : LookupArchive) (hs : sortedByKey tc a) (ns : Nat) (title : Title)
    (i j : Nat) (hij : i ≤ j) (hj : j < a.count)
    (hp : 0 < kcmp tc (ns, title) ((a.ent j).ns, (a.ent j).title)) :
    0 < kcmp tc (ns, title) ((a.ent i).ns, (a.ent i).title) := by
  rcases Nat.eq_or_lt_of_le hij with he | hl
  · rw [he]
    exact hp
  · have hsij := hs i (by omega) j hj hl
    have h2 := (kcmp_exch tc h1 (ns, title) ((a.ent j).ns, (a.ent j).title)).mp hp
    have h4 := kcmp_trans tc h3 ((a.ent i).ns, (a.ent i).title)
      ((a.ent j).ns, (a.ent j).title) (ns, title) hsij h2
    exact (kcmp_exch tc h1 (ns, title) ((a.ent i).ns, (a.ent i).title)).mpr h4

/-- The search key stays below every entry key at or above a position that
dominates it (upward closure). -/
theorem searchKey_neg_mono (tc : Title → Title → Int)
    (h3 : ∀ x y z, tc x y < 0 → tc y z < 0 → tc x z < 0)
    (a : LookupArchive) (hs : sortedByKey tc a) (ns : Nat) (title : Title)
    (i j : Nat) (hij : i ≤ j) (hj : j < a.count)
    (hn : kcmp tc (ns, title) ((a.ent i).ns, (a.ent i).title) < 0) :
    kcmp tc (ns, title) ((a.ent j).ns, (a.ent j).title) < 0 := by
  rcases Nat.eq_or_lt_of_le hij with he | hl
  · rw [← he]
    exact hn
  · exact kcmp_trans tc h3 (ns, title) ((a.ent i).ns, (a.ent i).title)
      ((a.ent j).ns, (a.ent j).title) hn (hs i (by omega) j hj hl)

/-- Invariant of the findArticle binary-search loop when the search title
compares unequal to every entry title: the loop returns NotFound with the
final upper bound u, where the search key dominates entry u-1 and
(u = count or the search key is below entry u). -/
theorem findArticleLoop_notFound (tc : Title → Title → Int) (a : LookupArchive)
    (ns : Nat) (title : Title)
    (habs : ∀ i, i < a.count → tc title (a.ent i).title ≠ 0) :
    ∀ fuel l u, u - l ≤ fuel → l < u → u ≤ a.count →
      0 < kcmp tc (ns, title) ((a.ent l).ns, (a.ent l).title) →
      (u = a.count ∨ kcmp tc (ns, title) ((a.ent u).ns, (a.ent u).title) < 0) →
      ∃ w, findArticleLoop tc a ns title fuel l u = (false, w) ∧
        l < w ∧ w ≤ u ∧
        0 < kcmp tc (ns, title) ((a.ent (w - 1)).ns, (a.ent (w - 1)).title) ∧
        (w = a.count ∨ kcmp tc (ns, title) ((a.ent w).ns, (a.ent w).title) < 0) := by
  intro fuel
  induction fuel with
  | zero => intro l u h1 h2 _ _ _; omega
  | succ k ih =>
    intro l u hfu hlu huc hl hu
    by_cases hg : 1 < u - l
    · have hred : findArticleLoop tc a ns title (k + 1) l u =
          if kcmp tc (ns, title)
              ((a.ent (l + (u - l) / 2)).ns, (a.ent (l + (u - l) / 2)).title) < 0 then
            findArticleLoop tc a ns title k l (l + (u - l) / 2)
          else if 0 < kcmp tc (ns, title)
              ((a.ent (l + (u - l) / 2)).ns, (a.ent (l + (u - l) / 2)).title) then
            findArticleLoop tc a ns title k (l + (u - l) / 2) u
          else (true, l + (u - l) / 2) := by
        simp only [findArticleLoop]
        rw [if_pos hg]
      rcases Int.lt_trichotomy
          (kcmp tc (ns, title)
            ((a.ent (l + (u - l) / 2)).ns, (a.ent (l + (u - l) / 2)).title)) 0 with
        hc | hc | hc
      · rw [hred, if_pos hc]
        obtain ⟨w, hw, hw1, hw2, hw3, hw4⟩ :=
          ih l (l + (u - l) / 2) (by omega) (by omega) (by omega) hl (Or.inr hc)
        exact ⟨w, hw, hw1, by omega, hw3, hw4⟩
      · exfalso
        have := (kcmp_eq_zero_iff tc (ns, title)
          ((a.ent (l + (u - l) / 2)).ns, (a.ent (l + (u - l) / 2)).title)).mp hc
        exact habs (l + (u - l) / 2) (by omega) this.2
      · rw [hred, if_neg (by omega), if_pos hc]
        obtain ⟨w, hw, hw1, hw2, hw3, hw4⟩ :=
          ih (l + (u - l) / 2) u (by omega) (by omega) huc hc hu
        exact ⟨w, hw, by omega, hw2, hw3, hw4⟩
    · have hpost : tc title (a.ent l).title ≠ 0 := habs l (by omega)
      have hred : findArticleLoop tc a ns title (k + 1) l u = (false, u) := by
        simp only [findArticleLoop]
        rw [if_neg hg, if_neg hpost]
      refine ⟨u, hred, hlu, le_refl _, ?_, hu⟩
      have hu1 : u - 1 = l := by omega
      rw [hu1]
      exact hl

end Lookup

/-! Properties of the byte-level layer. -/

namespace Store

theorem readBytes_len (s : ByteStore) (pos count : Nat) :
    (readBytes s pos count).length = min count (s.length - pos) := by
  simp [readBytes]

theorem getD_map_range (n i : Nat) (f : Nat → Nat) (h : i < n) :
    ((List.range n).map f).getD i 0 = f i := by
  rw [List.getD_eq_getElem?_getD, List.getElem?_map, List.getElem?_range h]
  rfl

/-- Successful open, forward direction: with a full header, the right magic
and the right version, the constructor returns the decoded count and the
offset table built from the pointer buffer. -/
theorem openArchive_ok_of (s : ByteStore) (h60 : 60 ≤ s.length)
    (hm : hdrMagic s = 1439867043) (hv : hdrVersion s = 3) :
    openArchive s = .ok
      { articleCount := hdrCount s
        indexOffsets := (List.range (hdrCount s)).map
          (fun i => (hdrIndexPos s + ptrVal s i) % 18446744073709551616) } := by
  simp only [openArchive]
  have e1 : ¬((readBytes s 0 60).length ≠ 60) := by
    rw [readBytes_len]
    omega
  rw [if_neg e1]
  have hm' : le32 (readBytes s 0 60) 0 = 1439867043 := hm
  rw [if_neg (not_not_intro hm')]
  have hv' : le32 (readBytes s 0 60) 4 = 3 := hv
  rw [if_neg (not_not_intro hv')]
  rfl

/-- Successful open, inversion: a returned result means the header was full
with the right magic and version, and pins down both fields of the result. -/
theorem openArchive_eq_ok (s : ByteStore) (r : OpenResult)
    (h : openArchive s = .ok r) :
    60 ≤ s.length ∧ hdrMagic s = 1439867043 ∧ hdrVersion s = 3 ∧
    r.articleCount = hdrCount s ∧
    r.indexOffsets = (List.range (hdrCount s)).map
      (fun i => (hdrIndexPos s + ptrVal s i) % 18446744073709551616) := by
  simp only [openArchive] at h
  split_ifs at h with h1 h2 h3
  simp only [Except.ok.injEq] at h
  subst h
  have hlen : (readBytes s 0 60).length = min 60 s.length := readBytes_len s 0 60
  exact ⟨by omega, not_not.mp h2, not_not.mp h3, rfl, rfl⟩

theorem openArchive_short (s : ByteStore) (h : s.length < 60) :
    openArchive s = .error (.formatError none) := by
  simp only [openArchive]
  have hc : (readBytes s 0 60).length ≠ 60 := by
    rw [readBytes_len]
    omega
  rw [if_pos hc]

theorem openArchive_badMagic (s : ByteStore) (h60 : 60 ≤ s.length)
    (hm : hdrMagic s ≠ 1439867043) :
    openArchive s = .error (.formatError (some (hdrMagic s))) := by
  simp only [openArchive]
  have e1 : ¬((readBytes s 0 60).length ≠ 60) := by
    rw [readBytes_len]
    omega
  rw [if_neg e1]
  have hm' : le32 (readBytes s 0 60) 0 ≠ 1439867043 := hm
  rw [if_pos hm']
  rfl

theorem openArchive_badVersion (s : ByteStore) (h60 : 60 ≤ s.length)
    (hm : hdrMagic s = 1439867043) (hv : hdrVersion s ≠ 3) :
    openArchive s = .error (.formatError (some (hdrVersion s))) := by
  simp only [openArchive]
  have e1 : ¬((readBytes s 0 60).length ≠ 60) := by
    rw [readBytes_len]
    omega
  rw [if_neg e1]
  have hm' : le32 (readBytes s 0 60) 0 = 1439867043 := hm
  rw [if_neg (not_not_intro hm')]
  have hv' : le32 (readBytes s 0 60) 4 ≠ 3 := hv
  rw [if_pos hv']
  rfl

/-- A directory-entry read never raises the out-of-range error: its failures
are format errors. -/
theorem readDirentNolock_not_oor (s : ByteStore) (off : Nat) :
    readDirentNolock s off ≠ Except.error ZenoError.outOfRange := by
  simp only [readDirentNolock, readDataNolock]
  split_ifs <;> simp

end Store

/-! The claim theorems. -/

/-- C1: the claim says findArticle(ns, title, collate) returns Found(i) iff
the entry at i has exactly that namespace and title, and that the post-loop
comparison of candidate l must match on both namespace and title.  The code
compares the title only after the loop (fileimpl.cpp lines 143-150): on the
sorted archive [('A', "t"), ('B', "x")], searching for ('B', "t") in
byte-exact mode returns Found(0) although entry 0 has namespace 'A', so the
claim fails on the code; this theorem evaluates the model at that failing
input. -/
theorem findArticle_found_foreign_namespace :
    Lookup.findArticle byteCompare Lookup.archNsBug [] 66 [116] = .ok (true, 0) ∧
    (Lookup.archNsBug.ent 0).ns = 65 ∧ (Lookup.archNsBug.ent 0).ns ≠ 66 :=
  ⟨rfl, rfl, by decide⟩

/-- C2 (amended): for a sorted archive and a key whose namespace is present,
whose title compares unequal to every entry title, and whose key is strictly
greater than the key of entry 0, findArticle returns NotFound(u) where the
entries with key strictly greater than the search key are exactly those at
indices ≥ u (so u is the insertion point); moreover 0 < u always. -/
theorem findArticle_notFound_insertion_point (tc : Title → Title → Int)
    (h1 : ∀ x y, 0 < tc x y ↔ tc y x < 0)
    (h3 : ∀ x y z, tc x y < 0 → tc y z < 0 → tc x z < 0)
    (a : Lookup.LookupArchive) (hs : Lookup.sortedByKey tc a)
    (ns : Nat) (title : Title)
    (hpres : ∃ i, i < a.count ∧ (a.ent i).ns = ns)
    (habs : ∀ i, i < a.count → tc title (a.ent i).title ≠ 0)
    (h0 : 0 < kcmp tc (ns, title) ((a.ent 0).ns, (a.ent 0).title)) :
    ∃ u, Lookup.findArticle tc a [] ns title = .ok (false, u) ∧
      0 < u ∧ u ≤ a.count ∧
      ∀ j, j < a.count →
        (kcmp tc (ns, title) ((a.ent j).ns, (a.ent j).title) < 0 ↔ u ≤ j) := by
  have hns := Lookup.sorted_ns_le tc a hs
  obtain ⟨i0, hi0, hnsi0⟩ := hpres
  have hcount : 0 < a.count := by omega
  have hgn := Lookup.getNamespaces_empty a hcount
  have hmem : ns ∈ Lookup.namespacesList a :=
    ((Lookup.namespacesList_spec a hns hcount).2 ns).mpr ⟨i0, hi0, hnsi0⟩
  have hred : Lookup.findArticle tc a [] ns title =
      .ok (Lookup.findArticleLoop tc a ns title a.count 0 a.count) := by
    simp only [Lookup.findArticle, hgn]
    rw [if_pos hmem]
  obtain ⟨w, hw, hw1, hw2, hw3, hw4⟩ :=
    Lookup.findArticleLoop_notFound tc a ns title habs a.count 0 a.count
      (by omega) hcount (le_refl _) h0 (Or.inl rfl)
  refine ⟨w, by rw [hred, hw], hw1, hw2, ?_⟩
  intro j hj
  constructor
  · intro hneg
    by_contra hltw
    push_neg at hltw
    have hpos := Lookup.searchKey_pos_mono tc h1 h3 a hs ns title j (w - 1)
      (by omega) (by omega) hw3
    omega
  · intro hwj
    rcases hw4 with he | hneg
    · omega
    · exact Lookup.searchKey_neg_mono tc h3 a hs ns title w j hwj hj hneg

/-- C2 counterexample: on the sorted archive [('A', "b"), ('A', "c")], the
key ('A', "a") is absent and entry 0's key is already strictly greater than
it, so the claimed insertion point is 0; the code returns NotFound(1). -/
theorem findArticle_notFound_at_zero_counterexample :
    Lookup.findArticle byteCompare Lookup.archInsert [] 65 [97] = .ok (false, 1) ∧
    kcmp byteCompare (65, [97])
      ((Lookup.archInsert.ent 0).ns, (Lookup.archInsert.ent 0).title) < 0 :=
  ⟨rfl, by decide⟩

/-- C2 witness: searching ('A', "c") between entries ('A', "b") and
('A', "d") returns NotFound with the correct insertion point. -/
theorem findArticle_notFound_insertion_point_witness :
    ∃ u, Lookup.findArticle byteCompare Lookup.archBetween [] 65 [99] =
        .ok (false, u) ∧
      0 < u ∧ u ≤ Lookup.archBetween.count ∧
      ∀ j, j < Lookup.archBetween.count →
        (kcmp byteCompare (65, [99])
          ((Lookup.archBetween.ent j).ns, (Lookup.archBetween.ent j).title) < 0 ↔
          u ≤ j) :=
  findArticle_notFound_insertion_point byteCompare byteCompare_exch
    byteCompare_trans Lookup.archBetween (by decide) 65 [99] ⟨0, by decide⟩
    (by decide) (by decide)

/-- C3: the claim says a truncated index-pointer read at open time raises
FormatError.  The source never checks that read (fileimpl.cpp line 74): on a
store that ends right after the header, with a 4-byte pointer table
announced at position 60, open completes and returns an offset table built
from the zero-filled buffer instead of failing. -/
theorem openArchive_truncated_ptr_read_succeeds :
    Store.hdrIndexPtrPos storeTrunc = 60 ∧
    Store.hdrIndexPtrLen storeTrunc = 4 ∧
    storeTrunc.length = 60 ∧
    Store.openArchive storeTrunc = .ok ⟨1, [100]⟩ :=
  ⟨rfl, rfl, rfl, rfl⟩

/-- C4: for a sorted archive and any namespace character present in it,
getNamespaceBeginOffset returns the first index of its run and
getNamespaceEndOffset one past the last: an index below the article count
has that namespace exactly when it lies in [begin, end). -/
theorem namespace_offsets_partition (a : Lookup.LookupArchive)
    (hs : Lookup.sortedByKey byteCompare a) (ch : Nat)
    (hpres : ∃ i, i < a.count ∧ (a.ent i).ns = ch) :
    ∃ b, Lookup.getNamespaceBeginOffset a ch = .ok b ∧
      ∀ i, i < a.count →
        ((a.ent i).ns = ch ↔ b ≤ i ∧ i < Lookup.getNamespaceEndOffset a ch) := by
  have hns := Lookup.sorted_ns_le byteCompare a hs
  obtain ⟨i0, hi0, hns0⟩ := hpres
  have hcount : 0 < a.count := by omega
  have hch : (a.ent 0).ns ≤ ch := by
    have := hns 0 i0 (by omega) hi0
    omega
  obtain ⟨hE1, hE2, hEc⟩ := Lookup.endOffset_char a ch hns hcount hch
  have hd0 : Lookup.getDirent a 0 = .ok (a.ent 0) := by
    unfold Lookup.getDirent
    rw [if_neg (by omega)]
  obtain ⟨b1, b2, b3, b4, b5⟩ :=
    Lookup.beginOffsetLoop_spec a ch a.count 0 a.count (by omega) hcount
      (le_refl _) (Or.inl rfl) (Or.inl rfl)
  by_cases h0 : (a.ent 0).ns < ch
  · have hb : Lookup.getNamespaceBeginOffset a ch =
        .ok (Lookup.beginOffsetLoop a ch a.count 0 a.count).2 := by
      simp only [Lookup.getNamespaceBeginOffset, hd0]
      rw [if_pos h0]
    have hLns : (a.ent (Lookup.beginOffsetLoop a ch a.count 0 a.count).1).ns < ch := by
      rcases b4 with hL0 | hL
      · rw [hL0]
        exact h0
      · exact hL
    have hUne : (Lookup.beginOffsetLoop a ch a.count 0 a.count).2 ≠ a.count := by
      intro hUc
      have hi0L : i0 ≤ (Lookup.beginOffsetLoop a ch a.count 0 a.count).1 := by omega
      have := hns i0 (Lookup.beginOffsetLoop a ch a.count 0 a.count).1 hi0L (by omega)
      omega
    have hUns : ch ≤ (a.ent (Lookup.beginOffsetLoop a ch a.count 0 a.count).2).ns := by
      rcases b5 with h | h
      · exact absurd h hUne
      · exact h
    refine ⟨(Lookup.beginOffsetLoop a ch a.count 0 a.count).2, hb, ?_⟩
    intro i hi
    constructor
    · intro hieq
      constructor
      · by_contra hiU
        push_neg at hiU
        have := hns i (Lookup.beginOffsetLoop a ch a.count 0 a.count).1
          (by omega) (by omega)
        omega
      · exact (hEc i hi).mpr (by omega)
    · rintro ⟨hUi, hiE⟩
      have hle := (hEc i hi).mp hiE
      have hge := hns (Lookup.beginOffsetLoop a ch a.count 0 a.count).2 i hUi hi
      omega
  · have h0e : (a.ent 0).ns = ch := by omega
    have hL0 : (Lookup.beginOffsetLoop a ch a.count 0 a.count).1 = 0 := by
      rcases b4 with h | h
      · exact h
      · exfalso
        have := hns 0 (Lookup.beginOffsetLoop a ch a.count 0 a.count).1
          (by omega) (by omega)
        omega
    have hb : Lookup.getNamespaceBeginOffset a ch = .ok 0 := by
      simp only [Lookup.getNamespaceBeginOffset, hd0]
      rw [if_neg h0, hL0]
    refine ⟨0, hb, ?_⟩
    intro i hi
    have hge : (a.ent 0).ns ≤ (a.ent i).ns := hns 0 i (by omega) hi
    constructor
    · intro hieq
      exact ⟨by omega, (hEc i hi).mpr (by omega)⟩
    · rintro ⟨_, hiE⟩
      have := (hEc i hi).mp hiE
      omega

/-- C4 witness: on the four-entry archive with namespaces A B B C, the run
of 'B' is delimited exactly. -/
theorem namespace_offsets_partition_witness :
    ∃ b, Lookup.getNamespaceBeginOffset Lookup.archFour 66 = .ok b ∧
      ∀ i, i < Lookup.archFour.count →
        ((Lookup.archFour.ent i).ns = 66 ↔
          b ≤ i ∧ i < Lookup.getNamespaceEndOffset Lookup.archFour 66) :=
  namespace_offsets_partition Lookup.archFour (by decide) 66 ⟨1, by decide⟩

/-- C5: for a sorted non-empty archive, getNamespaces returns each present
namespace exactly once, in ascending order (which is the order of first
occurrence, since the table is namespace-major), and a repeated call with
the filled cache returns the same string. -/
theorem getNamespaces_distinct_ascending_stable (a : Lookup.LookupArchive)
    (hs : Lookup.sortedByKey byteCompare a) (hcount : 0 < a.count) :
    ∃ v, Lookup.getNamespaces a [] = .ok (v, v) ∧ v.Nodup ∧
      List.Chain' (· < ·) v ∧
      (∀ c, c ∈ v ↔ ∃ i, i < a.count ∧ (a.ent i).ns = c) ∧
      Lookup.getNamespaces a v = .ok (v, v) := by
  have hns := Lookup.sorted_ns_le byteCompare a hs
  obtain ⟨hchain, hmem⟩ := Lookup.namespacesList_spec a hns hcount
  have hne : Lookup.namespacesList a ≠ [] :=
    List.ne_nil_of_mem ((hmem ((a.ent 0).ns)).mpr ⟨0, hcount, rfl⟩)
  refine ⟨Lookup.namespacesList a, Lookup.getNamespaces_empty a hcount, ?_,
    hchain, hmem, ?_⟩
  · exact (List.chain'_iff_pairwise.mp hchain).imp (fun h => Nat.ne_of_lt h)
  · simp only [Lookup.getNamespaces]
    rw [if_neg hne]

/-- C5 witness: the four-entry archive yields the namespace string "ABC",
once each, ascending, and stable across the second call. -/
theorem getNamespaces_distinct_ascending_stable_witness :
    ∃ v, Lookup.getNamespaces Lookup.archFour [] = .ok (v, v) ∧ v.Nodup ∧
      List.Chain' (· < ·) v ∧
      (∀ c, c ∈ v ↔ ∃ i, i < Lookup.archFour.count ∧
        (Lookup.archFour.ent i).ns = c) ∧
      Lookup.getNamespaces Lookup.archFour v = .ok (v, v) :=
  getNamespaces_distinct_ascending_stable Lookup.archFour (by decide) (by decide)

/-- C6: open succeeds exactly when the store holds a full 60-byte header
whose magic is 1439867043 and whose version is 3; a shorter store raises
FormatError, and a magic or version mismatch raises FormatError carrying
the decoded mismatched value. -/
theorem openArchive_magic_version_check (s : Store.ByteStore) :
    ((∃ r, Store.openArchive s = .ok r) ↔
      60 ≤ s.length ∧ Store.hdrMagic s = 1439867043 ∧ Store.hdrVersion s = 3) ∧
    (s.length < 60 → Store.openArchive s = .error (.formatError none)) ∧
    (60 ≤ s.length → Store.hdrMagic s ≠ 1439867043 →
      Store.openArchive s = .error (.formatError (some (Store.hdrMagic s)))) ∧
    (60 ≤ s.length → Store.hdrMagic s = 1439867043 → Store.hdrVersion s ≠ 3 →
      Store.openArchive s = .error (.formatError (some (Store.hdrVersion s)))) := by
  refine ⟨⟨?_, ?_⟩, Store.openArchive_short s, Store.openArchive_badMagic s,
    Store.openArchive_badVersion s⟩
  · rintro ⟨r, hr⟩
    obtain ⟨ha, hb, hc, _, _⟩ := Store.openArchive_eq_ok s r hr
    exact ⟨ha, hb, hc⟩
  · rintro ⟨h60, hm, hv⟩
    exact ⟨_, Store.openArchive_ok_of s h60 hm hv⟩

/-- C6 witness: the all-zero 60-byte store has magic 0, so open fails with
FormatError carrying 0, and the equivalence instantiates there. -/
theorem openArchive_magic_version_check_witness :
    ((∃ r, Store.openArchive storeBadMagic = .ok r) ↔
      60 ≤ storeBadMagic.length ∧ Store.hdrMagic storeBadMagic = 1439867043 ∧
        Store.hdrVersion storeBadMagic = 3) ∧
    (storeBadMagic.length < 60 →
      Store.openArchive storeBadMagic = .error (.formatError none)) ∧
    (60 ≤ storeBadMagic.length → Store.hdrMagic storeBadMagic ≠ 1439867043 →
      Store.openArchive storeBadMagic =
        .error (.formatError (some (Store.hdrMagic storeBadMagic)))) ∧
    (60 ≤ storeBadMagic.length → Store.hdrMagic storeBadMagic = 1439867043 →
      Store.hdrVersion storeBadMagic ≠ 3 →
      Store.openArchive storeBadMagic =
        .error (.formatError (some (Store.hdrVersion storeBadMagic)))) :=
  openArchive_magic_version_check storeBadMagic

/-- C7: after a successful open, the offset table has exactly articleCount
entries and its i-th entry is the index-table base position plus the i-th
decoded pointer value (64-bit arithmetic), in read order. -/
theorem offsetTable_length_and_values (s : Store.ByteStore) (r : Store.OpenResult)
    (h : Store.openArchive s = .ok r) :
    r.indexOffsets.length = r.articleCount ∧
    r.articleCount = Store.hdrCount s ∧
    ∀ i, i < r.articleCount →
      r.indexOffsets.getD i 0 =
        (Store.hdrIndexPos s + Store.ptrVal s i) % 18446744073709551616 := by
  obtain ⟨_, _, _, hc, ho⟩ := Store.openArchive_eq_ok s r h
  refine ⟨?_, hc, ?_⟩
  · rw [ho, hc, List.length_map, List.length_range]
  · intro i hi
    rw [ho]
    exact Store.getD_map_range _ i _ (by omega)

/-- C7 witness: opening the complete one-article store yields a one-entry
offset table whose entry is 100 + 7. -/
theorem offsetTable_length_and_values_witness :
    Store.openArchive storeFull = .ok ⟨1, [107]⟩ ∧
    ((⟨1, [107]⟩ : Store.OpenResult).indexOffsets.length =
        (⟨1, [107]⟩ : Store.OpenResult).articleCount ∧
      (⟨1, [107]⟩ : Store.OpenResult).articleCount = Store.hdrCount storeFull ∧
      ∀ i, i < (⟨1, [107]⟩ : Store.OpenResult).articleCount →
        (⟨1, [107]⟩ : Store.OpenResult).indexOffsets.getD i 0 =
          (Store.hdrIndexPos storeFull + Store.ptrVal storeFull i) %
            18446744073709551616) :=
  ⟨rfl, offsetTable_length_and_values storeFull ⟨1, [107]⟩ rfl⟩

/-- C8: getArticle(idx) and getDirent(idx) raise the out-of-range error
exactly when idx ≥ articleCount; below the count they return the entry (or
the article handle built from it) decoded at offsetTable[idx], without
error, whenever that entry reads back well-formed. -/
theorem accessors_out_of_range (r : Store.OpenResult) (s : Store.ByteStore)
    (idx : Nat) :
    (Store.getDirent r s idx = .error .outOfRange ↔ r.articleCount ≤ idx) ∧
    (Store.getArticle r s idx = .error .outOfRange ↔ r.articleCount ≤ idx) ∧
    ∀ d, idx < r.articleCount →
      Store.readDirentNolock s (r.indexOffsets.getD idx 0) = .ok d →
      Store.getDirent r s idx = .ok d ∧ Store.getArticle r s idx = .ok (idx, d) := by
  by_cases hb : r.articleCount ≤ idx
  · have hd : Store.getDirent r s idx = .error .outOfRange := by
      unfold Store.getDirent Store.getCountArticles
      rw [if_pos hb]
    have ha : Store.getArticle r s idx = .error .outOfRange := by
      unfold Store.getArticle Store.getCountArticles
      rw [if_pos hb]
    exact ⟨⟨fun _ => hb, fun _ => hd⟩, ⟨fun _ => hb, fun _ => ha⟩,
      fun d hlt _ => absurd hb (by omega)⟩
  · have hd : Store.getDirent r s idx =
        Store.readDirentNolock s (r.indexOffsets.getD idx 0) := by
      unfold Store.getDirent Store.getCountArticles
      rw [if_neg hb]
    cases hrd : Store.readDirentNolock s (r.indexOffsets.getD idx 0) with
    | error e =>
      have henoor : e ≠ ZenoError.outOfRange := by
        intro he
        exact Store.readDirentNolock_not_oor s (r.indexOffsets.getD idx 0)
          (by rw [hrd, he])
      have hd2 : Store.getDirent r s idx = .error e := by rw [hd, hrd]
      have ha2 : Store.getArticle r s idx = .error e := by
        unfold Store.getArticle Store.getCountArticles
        rw [if_neg hb, hrd]
      refine ⟨?_, ?_, ?_⟩
      · rw [hd2]
        constructor
        · intro h
          injection h with h'
          exact absurd h' henoor
        · intro h
          exact absurd h hb
      · rw [ha2]
        constructor
        · intro h
          injection h with h'
          exact absurd h' henoor
        · intro h
          exact absurd h hb
      · intro d hlt hok
        exact Except.noConfusion hok
    | ok d0 =>
      have hd2 : Store.getDirent r s idx = .ok d0 := by rw [hd, hrd]
      have ha2 : Store.getArticle r s idx = .ok (idx, d0) := by
        unfold Store.getArticle Store.getCountArticles
        rw [if_neg hb, hrd]
      refine ⟨?_, ?_, ?_⟩
      · rw [hd2]
        constructor
        · intro h
          exact Except.noConfusion h
        · intro h
          exact absurd h hb
      · rw [ha2]
        constructor
        · intro h
          exact Except.noConfusion h
        · intro h
          exact absurd h hb
      · intro d hlt hok
        injection hok with h'
        subst h'
        exact ⟨hd2, ha2⟩

/-- C8 witness: a one-article table with its entry at offset 0 of a 26-byte
all-zero store: index 0 is in range and decodes, and the out-of-range
equivalence instantiates. -/
theorem accessors_out_of_range_witness :
    (Store.getDirent ⟨1, [0]⟩ storeDirent 0 = .error .outOfRange ↔
      (1 : Nat) ≤ 0) ∧
    Store.getDirent ⟨1, [0]⟩ storeDirent 0 = .ok ⟨List.replicate 26 0, []⟩ ∧
    Store.getArticle ⟨1, [0]⟩ storeDirent 0 = .ok (0, ⟨List.replicate 26 0, []⟩) :=
  ⟨(accessors_out_of_range ⟨1, [0]⟩ storeDirent 0).1,
    ((accessors_out_of_range ⟨1, [0]⟩ storeDirent 0).2.2 ⟨List.replicate 26 0, []⟩
      (by decide) rfl).1,
    ((accessors_out_of_range ⟨1, [0]⟩ storeDirent 0).2.2 ⟨List.replicate 26 0, []⟩
      (by decide) rfl).2⟩

/-- C9: when the search key's namespace does not occur in the string
returned by getNamespaces, findArticle short-circuits to NotFound(0),
whatever the title (so the returned index carries no insertion-point
meaning in this case). -/
theorem findArticle_absent_namespace_zero (tc : Title → Title → Int)
    (a : Lookup.LookupArchive) (ns : Nat) (title : Title) (v st : List Nat)
    (h : Lookup.getNamespaces a [] = .ok (v, st)) (hns : ns ∉ v) :
    Lookup.findArticle tc a [] ns title = .ok (false, 0) := by
  simp only [Lookup.findArticle, h]
  rw [if_neg hns]

/-- C9 witness: namespace 'Z' is absent from the one-entry archive in
namespace 'A', so the search returns NotFound(0). -/
theorem findArticle_absent_namespace_zero_witness :
    Lookup.findArticle byteCompare Lookup.archOne [] 90 [] = .ok (false, 0) :=
  findArticle_absent_namespace_zero byteCompare Lookup.archOne 90 [] [65] [65]
    rfl (by decide)

/-- C10: on an archive with article count 0, getNamespaces reads the entry
at index 0 unconditionally and so raises the out-of-range error instead of
returning an empty namespace set, and findArticle consequently raises the
same error instead of returning NotFound. -/
theorem empty_archive_accessors_raise (a : Lookup.LookupArchive)
    (h : a.count = 0) (tc : Title → Title → Int) (ns : Nat) (title : Title) :
    Lookup.getNamespaces a [] = .error .outOfRange ∧
    Lookup.findArticle tc a [] ns title = .error .outOfRange := by
  have hd0 : Lookup.getDirent a 0 = .error .outOfRange := by
    unfold Lookup.getDirent
    rw [if_pos (by omega)]
  have hg : Lookup.getNamespaces a [] = .error .outOfRange := by
    simp only [Lookup.getNamespaces, hd0]
    rfl
  refine ⟨hg, ?_⟩
  simp only [Lookup.findArticle, hg]

/-- C10 witness: the empty archive raises out-of-range from both
getNamespaces and findArticle. -/
theorem empty_archive_accessors_raise_witness :
    Lookup.getNamespaces Lookup.archEmpty [] = .error .outOfRange ∧
    Lookup.findArticle byteCompare Lookup.archEmpty [] 65 [] =
      .error .outOfRange :=
  empty_archive_accessors_raise Lookup.archEmpty rfl byteCompare 65 []

end Zeno

